import Mathlib

/-!
Verification of the polygon resampling / alignment / correspondence pipeline of
`aiearth/deeplearning/datasets/mmdet/polybuilding/pipelines/loading.py`
(class `LoadBuildingAnnotations`).

Modelling conventions:
* a polygon is a `List (ℚ × ℚ)` of vertices (numpy `(n, 2)` float arrays are
  idealised as rational points; floating point rounding is not modelled);
* Euclidean edge lengths use `Real.sqrt`, so the handful of definitions that
  consume actual lengths (the subdivision allocation of `uniformsample`) are
  `noncomputable`; index sortings compare squared lengths in `ℚ`, which gives
  the same order because `Real.sqrt` is monotone on nonnegative numbers;
* `np.round` rounds half to even, modelled by `npRound`;
* `np.argsort` has no specified tie behaviour; it is modelled as a stable sort
  (ties keep the original index order), matching the spec's reading;
* fallible numpy operations (`reshape(-1, 2)` on an odd-length array, list
  indexing past the end) are modelled with `Option`;
* the external libraries are modelled by their documented contracts: shapely's
  `is_ccw` is "signed shoelace area is positive", shapely's `simplify` and
  scipy's `linear_sum_assignment` are abstract function parameters, and
  pycocotools mask decoding is abstracted by taking the decoded rasters as
  input.
-/

/-- A 2D point with rational coordinates. -/
abbrev Q2 : Type := ℚ × ℚ

/-- Cross product `x₁·y₂ − y₁·x₂` of two points seen as vectors. -/
def cross2 (a b : Q2) : ℚ := a.1 * b.2 - a.2 * b.1

/-- Shorthand for `p.getD i (0,0)`: numpy-style row access with a junk default. -/
def getP (p : List Q2) (i : ℕ) : Q2 := p.getD i (0, 0)

/-- Sum of `cross2` over a list of vertex pairs. -/
def areaSum (l : List (Q2 × Q2)) : ℚ := (l.map (fun ab => cross2 ab.1 ab.2)).sum

/-- The list of cyclically adjacent vertex pairs `(pᵢ, p_{i+1 mod n})`. -/
def cyclePairs (p : List Q2) : List (Q2 × Q2) := p.zip (p.rotate 1)

/-- Signed shoelace sum `Σ (xᵢ·y_{i+1} − yᵢ·x_{i+1})` over the cyclic vertex
list: twice the standard signed area, positive on counter-clockwise rings.
This is the quantity whose sign shapely's `exterior.is_ccw` tests. -/
def signedAreaCc (p : List Q2) : ℚ := areaSum (cyclePairs p)

/-- Shapely's `Polygon(poly).exterior.is_ccw`: the ring winds counter-clockwise.
Modelled from the library's documented semantics (positive signed area). -/
def is_ccw (p : List Q2) : Prop := 0 < signedAreaCc p

instance (p : List Q2) : Decidable (is_ccw p) := by unfold is_ccw; infer_instance

/-- Source `get_cw_poly` (lines 233-234): reverse the vertex order when the
polygon is counter-clockwise, so the output is clockwise. -/
def get_cw_poly (p : List Q2) : List Q2 := if is_ccw p then p.reverse else p

/-- Numpy `np.min` over a list of rationals (junk value 0 on the empty list, where
numpy would raise; never reached on the inputs the theorems consider). -/
def listMinQ : List ℚ → ℚ
  | [] => 0
  | a :: rest => rest.foldl min a

/-- Numpy `np.max` over a list of rationals (junk value 0 on the empty list). -/
def listMaxQ : List ℚ → ℚ
  | [] => 0
  | a :: rest => rest.foldl max a

/-- Numpy `np.argmin`: index of the first occurrence of the minimum (0 on the empty
list, where numpy would raise). -/
def argminIdx : List ℚ → ℕ
  | [] => 0
  | a :: rest =>
    match rest with
    | [] => 0
    | _ :: _ => if a ≤ listMinQ rest then 0 else argminIdx rest + 1

/-- Source `_polygon_area` (lines 207-222): the shoelace area
`0.5 * |x·roll(y,1) − y·roll(x,1)|`.  `np.roll(v, 1)` pairs each vertex with
its cyclic predecessor, i.e. `zip p (p.rotate (n-1))`. -/
def _polygon_area (p : List Q2) : ℚ :=
  (1 / 2) * |areaSum (p.zip (p.rotate (p.length - 1)))|

/-- Source `filter_tiny_polys` (lines 224-231): keep polygons whose bounding
box is at least 1 wide and 1 high, then keep those of shoelace area > 5. -/
def filter_tiny_polys (polys : List (List Q2)) : List (List Q2) :=
  (polys.filter (fun p =>
      decide (1 ≤ listMaxQ (p.map Prod.fst) - listMinQ (p.map Prod.fst)) &&
      decide (1 ≤ listMaxQ (p.map Prod.snd) - listMinQ (p.map Prod.snd)))).filter
    (fun p => decide (5 < _polygon_area p))

/-- Numpy `np.array(p).reshape(-1, 2)` on a flat coordinate list: consecutive pairs.
The odd tail element (which cannot occur after the even-length guard) is
dropped. -/
def pairUp : List ℚ → List Q2
  | [] => []
  | [_] => []
  | a :: b :: rest => (a, b) :: pairUp rest

/-- Numpy `np.array(p).reshape(-1, 2)` as the fallible operation: `none`
(a raised `ValueError`) when the flat length is odd. -/
def reshape2 (flat : List ℚ) : Option (List Q2) :=
  if flat.length % 2 = 0 then some (pairUp flat) else none

/-- Python slice `l[::k]`: every `k`-th element, `⌈len/k⌉` of them. -/
def npStride (k : ℕ) (l : List Q2) : List Q2 :=
  (List.range ((l.length + k - 1) / k)).map (fun j => getP l (j * k))

/-- Source `unify_origin_polygon` (lines 263-275): rotate the vertex list so
the vertex closest to the top-mid-point of the bounding box comes first. -/
def unify_origin_polygon (p : List Q2) : List Q2 :=
  let xmin := listMinQ (p.map Prod.fst)
  let xmax := listMaxQ (p.map Prod.fst)
  let ymin := listMinQ (p.map Prod.snd)
  let tcx := (xmin + xmax) / 2
  let tcy := ymin
  let dist := p.map (fun q => (q.1 - tcx) ^ 2 + (q.2 - tcy) ^ 2)
  let min_dist_idx := argminIdx dist
  p.drop min_dist_idx ++ p.take min_dist_idx

/-- Squared Euclidean length of edge `i` (from vertex `i` to vertex
`(i+1) mod n`), the radicand of `edgelen_p[i]` in the source. -/
def edgeLenSq (p : List Q2) (i : ℕ) : ℚ :=
  let a := getP p i
  let b := getP p ((i + 1) % p.length)
  (b.1 - a.1) ^ 2 + (b.2 - a.2) ^ 2

/-- Source `edgelen_p[i] = sqrt(Σ (p[i+1] − p[i])²)` (source line 283). -/
noncomputable def edgeLen (p : List Q2) (i : ℕ) : ℝ :=
  Real.sqrt ((edgeLenSq p i : ℚ) : ℝ)

/-- Numpy `np.sum(edgelen_p)`: the polygon's perimeter. -/
noncomputable def perimeterR (p : List Q2) : ℝ :=
  ∑ i ∈ Finset.range p.length, edgeLen p i

/-- Numpy `np.argsort(edgelen_p)` (source line 284): edge indices sorted by
ascending length, ties keeping the original index order (stable).  Comparing
squared lengths in `ℚ` orders identically to comparing the `Real.sqrt`
lengths, since squaring is monotone on nonnegative reals. -/
def argsortEdges (p : List Q2) : List ℕ :=
  (List.range p.length).mergeSort (fun i j => decide (edgeLenSq p i ≤ edgeLenSq p j))

/-- Numpy `np.round`: round half to even (banker's rounding). -/
noncomputable def npRound (x : ℝ) : ℤ :=
  @ite _ (Int.fract x = 1 / 2) (Classical.propDecidable _)
    (if 2 ∣ ⌊x⌋ then ⌊x⌋ else ⌊x⌋ + 1) (round x)

/-- Source `np.round(edgelen_p * newpnum / np.sum(edgelen_p))` (line 298). -/
noncomputable def edgenumInit (p : List Q2) (N : ℕ) : List ℤ :=
  (List.range p.length).map (fun i => npRound (edgeLen p i * N / perimeterR p))

/-- The floor-of-1 pass (source lines 299-301): zero allocations become 1. -/
def edgenumFloor (l : List ℤ) : List ℤ := l.map (fun e => if e = 0 then 1 else e)

/-- The excess-correction loop (source lines 306-317): walk the length-sorted
edge indices from the longest end, taking counts down (never below 1) until
the excess `passnum` is gone.  The `[]` case is numpy's out-of-range indexing;
the invariant theorems show it is never reached. -/
def fixExcess : List ℕ → List ℤ → ℤ → List ℤ
  | [], en, _ => en
  | i :: rest, en, passnum =>
    if passnum ≤ 0 then en
    else if passnum < en.getD i 0 then en.set i (en.getD i 0 - passnum)
    else fixExcess rest (en.set i 1) (passnum - (en.getD i 0 - 1))

/-- The per-edge allotted counts of the subdivision branch after rounding,
the floor-of-1 pass and the excess/deficit correction (source lines 298-321). -/
noncomputable def edgenumFinal (p : List Q2) (N : ℕ) : List ℤ :=
  let en := edgenumFloor (edgenumInit p N)
  let s := en.sum
  if s = (N : ℤ) then en
  else if (N : ℤ) < s then fixExcess (argsortEdges p).reverse en (s - (N : ℤ))
  else en.set ((argsortEdges p).getLastD 0)
    (en.getD ((argsortEdges p).getLastD 0) 0 + ((N : ℤ) - s))

/-- Source `uniformsample(pgtnp_px2, newpnum)` (lines 277-339).  Contraction
branch (`pnum > newpnum`): keep the `newpnum` vertices whose outgoing edges are
longest, re-sorted into traversal order.  Subdivision branch: linearly
interpolate each edge's allotted count of points and concatenate. -/
noncomputable def uniformsample (p : List Q2) (N : ℕ) : List Q2 :=
  let n := p.length
  if N < n then
    (((argsortEdges p).drop (n - N)).mergeSort (fun i j => decide (i ≤ j))).map (getP p)
  else
    let en := edgenumFinal p N
    (List.range n).flatMap (fun i =>
      (List.range (en.getD i 0).toNat).map (fun (k : ℕ) =>
        let a := getP p i
        let b := getP p ((i + 1) % n)
        let w : ℚ := (k : ℚ) / ((en.getD i 0 : ℤ) : ℚ)
        (a.1 * (1 - w) + b.1 * w, a.2 * (1 - w) + b.2 * w)))

/-- The configuration fields of `LoadBuildingAnnotations.__init__` that the
polygon pipeline reads (source lines 47-66). -/
structure LoadCfg where
  num_points : ℕ
  spline_num : ℕ
  key_points_weight : ℚ

/-- Source `self.spline_poly_num = num_points * 10` (line 64): the working
resolution passed to `uniformsample`, with a hardcoded factor 10. -/
def spline_poly_num (cfg : LoadCfg) : ℕ := cfg.num_points * 10

/-- The body of the `for polygon in polygons` loop of `unify_polygons`
(source lines 249-259): oversample, rotate to the point nearest the first
sample, subsample with stride `spline_num`, enforce clockwise winding,
canonicalise the origin. -/
noncomputable def resampleOne (cfg : LoadCfg) (polygon : List Q2) : List Q2 :=
  let sampled_polygon := uniformsample polygon (spline_poly_num cfg)
  let tt_idx := argminIdx (sampled_polygon.map (fun q =>
    (q.1 - (getP sampled_polygon 0).1) ^ 2 + (q.2 - (getP sampled_polygon 0).2) ^ 2))
  let valid_polygon := npStride cfg.spline_num (sampled_polygon.rotate tt_idx)
  let cw_valid_polygon := get_cw_poly valid_polygon
  unify_origin_polygon cw_valid_polygon

/-- Source `unify_polygons(polygons, gt_bbox)` (lines 236-261).  The raw flat
lists are reshaped to point pairs (`none` on an odd-length list, where numpy
raises); `filtered_polygons` and its bounding-box-rectangle fallback are
computed exactly as in the source — and, exactly as in the source, never read
afterwards: the resampling loop runs over `polygons`. -/
noncomputable def unify_polygons (cfg : LoadCfg) (flat : List (List ℚ))
    (gt_bbox : ℚ × ℚ × ℚ × ℚ) : Option (List (List Q2) × List (List ℚ)) := do
  let polygons ← flat.mapM reshape2
  let filtered_polygons := filter_tiny_polys polygons
  let _filtered_polygons := if filtered_polygons.isEmpty then
      [[(gt_bbox.1, gt_bbox.2.1), (gt_bbox.1, gt_bbox.2.2.2),
        (gt_bbox.2.2.1, gt_bbox.2.2.2), (gt_bbox.2.2.1, gt_bbox.2.1)]]
    else filtered_polygons
  some (polygons.map (resampleOne cfg),
    polygons.map (fun _ => List.replicate cfg.num_points (1 : ℚ)))

/-- The min-y (tie-break: min-x) start-vertex index used by
`process_polygons_m` (source lines 181-184). -/
def minYXIdx (p : List Q2) : ℕ :=
  let min_y := listMinQ (p.map Prod.snd)
  let min_idy := (List.range p.length).filter (fun i => decide ((getP p i).2 = min_y))
  let min_idx := argminIdx (min_idy.map (fun i => (getP p i).1))
  min_idy.getD min_idx 0

/-- Python `int()` cast of a rational: truncation toward zero. -/
def truncQ (q : ℚ) : ℤ := if 0 ≤ q then ⌊q⌋ else ⌈q⌉

/-- The shortest-outgoing-edge contraction of `process_polygons_m` (source
lines 190-196), identical to the contraction branch of `uniformsample`. -/
def contractPoly (p : List Q2) (thres : ℕ) : List Q2 :=
  (((argsortEdges p).drop (p.length - thres)).mergeSort (fun i j => decide (i ≤ j))).map (getP p)

/-- The body of the valid-polygon branch of `process_polygons_m` (source lines
174-202): simplify (abstract shapely `simplify(0.5)` plus ring closure),
drop the duplicated closing vertex, rotate the min-y/min-x vertex first,
contract to at most `thres` vertices, zero-pad to `thres` with a parallel
binary weight column. -/
def processOne (cfg : LoadCfg) (simp_fn : List Q2 → List Q2) (polygon : List ℚ) :
    List (ℤ × ℤ) × List ℤ :=
  let poly0 := simp_fn (pairUp polygon)
  let poly1 := if poly0.headD (0, 0) = poly0.getLastD (0, 0) then poly0.dropLast else poly0
  let poly2 := poly1.rotate (minYXIdx poly1)
  let thres := if cfg.num_points ≤ 0 then 64 else cfg.num_points
  let poly3 := if thres < poly2.length then contractPoly poly2 thres else poly2
  let poly_64 := (poly3.map (fun q => (truncQ q.1, truncQ q.2))) ++
    List.replicate (thres - poly3.length) ((0 : ℤ), (0 : ℤ))
  let poly_weight := List.replicate poly3.length (1 : ℤ) ++
    List.replicate (thres - poly3.length) (0 : ℤ)
  (poly_64, poly_weight)

/-- Source `process_polygons_m(polygons)` (lines 159-205): flat lists of odd
length or fewer than 3 points are skipped; each remaining polygon contributes
one `(poly_64, poly_weight)` pair.  `simp_fn` abstracts shapely's
`Polygon(...).simplify(0.5).exterior.coords` with the closing vertex already
dropped by the caller-side check modelled in `processOne`. -/
def process_polygons_m (cfg : LoadCfg) (simp_fn : List Q2 → List Q2)
    (flat : List (List ℚ)) : List (List (ℤ × ℤ)) × List (List ℤ) :=
  let valid := flat.filter (fun q => decide (q.length % 2 = 0) && decide (6 ≤ q.length))
  (valid.map (fun q => (processOne cfg simp_fn q).1),
   valid.map (fun q => (processOne cfg simp_fn q).2))

/-- The per-instance correspondence update of `_load_masks` (source lines
393-396): overwrite each matched row of the resampled polygon with its matched
keypoint, and build the weight column.  The column is the int-typed array
`np.ones((num_points, 1), dtype=int)`, so assigning `key_points_weight` into
its matched rows truncates the configured weight toward zero (`truncQ`);
unmatched rows keep 1. -/
def matchUpdate (N : ℕ) (poly kp : List Q2) (pairs : List (ℕ × ℕ)) (w : ℚ) :
    List Q2 × List ℤ :=
  (pairs.foldl (fun acc rc => acc.set rc.1 (kp.getD rc.2 (0, 0))) poly,
   pairs.foldl (fun acc rc => acc.set rc.1 (truncQ w)) (List.replicate N (1 : ℤ)))

/-- One instance of the `spline_num > 0` branch of `_load_masks` (source lines
380-397): resample via `unify_polygons`, simplify via `process_polygons_m`,
then for every resampled part index access the simplified part of the same
index (`none` models the `IndexError` when the simplified list is shorter),
keep its positive-weight rows, match (`assign` abstracts scipy's
`linear_sum_assignment` on the `cdist` cost matrix) and apply `matchUpdate`. -/
noncomputable def loadMasksInstanceSpline (cfg : LoadCfg)
    (simp_fn : List Q2 → List Q2) (assign : List Q2 → List Q2 → List (ℕ × ℕ))
    (gt_mask : List (List ℚ)) (gt_bbox : ℚ × ℚ × ℚ × ℚ) :
    Option (List (List Q2) × List (List ℤ)) :=
  match unify_polygons cfg gt_mask gt_bbox with
  | none => none
  | some (poly, _poly_weight) =>
    let pp := process_polygons_m cfg simp_fn gt_mask
    if poly.length ≤ pp.1.length then
      some ((List.range poly.length).map (fun idx =>
          let p1 := poly.getD idx []
          let p2 := ((pp.1.getD idx []).zip (pp.2.getD idx [])).filter
            (fun xw => decide (0 < xw.2)) |>.map (fun (xw : (ℤ × ℤ) × ℤ) =>
              ((xw.1.1 : ℚ), (xw.1.2 : ℚ)))
          (matchUpdate cfg.num_points p1 p2 (assign p1 p2) cfg.key_points_weight).1),
        (List.range poly.length).map (fun idx =>
          let p1 := poly.getD idx []
          let p2 := ((pp.1.getD idx []).zip (pp.2.getD idx [])).filter
            (fun xw => decide (0 < xw.2)) |>.map (fun (xw : (ℤ × ℤ) × ℤ) =>
              ((xw.1.1 : ℚ), (xw.1.2 : ℚ)))
          (matchUpdate cfg.num_points p1 p2 (assign p1 p2) cfg.key_points_weight).2))
    else none

/-- Elementwise sum of two rasters (numpy broadcasting is not modelled; the
rasters the pipeline sums have equal shapes). -/
def addRaster (a b : List (List ℚ)) : List (List ℚ) :=
  List.zipWith (fun r s => List.zipWith (fun x y => x + y) r s) a b

/-- Numpy `np.array([...decoded masks...]).sum(0)` (source lines 364-366). -/
def npSumMasks : List (List (List ℚ)) → List (List ℚ)
  | [] => []
  | m :: rest => rest.foldl addRaster m

/-- The `.shape` of a raster modelled as a nested list. -/
def rasterShape (m : List (List ℚ)) : ℕ × ℕ := (m.length, (m.headD []).length)

/-- Numpy `np.zeros((h, w))`. -/
def zeroRaster (h w : ℕ) : List (List ℚ) :=
  List.replicate h (List.replicate w (0 : ℚ))

/-- The rasterization path of `_load_masks` (source lines 361-369): sum the
decoded per-instance masks; if the result's shape is not `(h, w)`, substitute
an all-zero `(h, w)` raster. -/
def gt_poly_masks (decoded : List (List (List ℚ))) (h w : ℕ) : List (List ℚ) :=
  let s := npSumMasks decoded
  if rasterShape s = (h, w) then s else zeroRaster h w

/-! ### List lemmas about `zip`, `rotate` and `reverse` -/

lemma zip_drop_eq {α β : Type} (a : List α) :
    ∀ (b : List β) (k : ℕ), (a.zip b).drop k = (a.drop k).zip (b.drop k) := by
  induction a with
  | nil => intro b k; simp
  | cons x xs ih =>
    intro b k
    cases b with
    | nil => simp
    | cons y ys =>
      cases k with
      | zero => simp
      | succ k => simpa using ih ys k

lemma zip_take_eq {α β : Type} (a : List α) :
    ∀ (b : List β) (k : ℕ), (a.zip b).take k = (a.take k).zip (b.take k) := by
  induction a with
  | nil => intro b k; simp
  | cons x xs ih =>
    intro b k
    cases b with
    | nil => simp
    | cons y ys =>
      cases k with
      | zero => simp
      | succ k => simpa using ih ys k

lemma zip_rotate {α β : Type} (a : List α) (b : List β) (k : ℕ)
    (hlen : a.length = b.length) (hk : k ≤ a.length) :
    (a.rotate k).zip (b.rotate k) = (a.zip b).rotate k := by
  rw [List.rotate_eq_drop_append_take hk, List.rotate_eq_drop_append_take (hlen ▸ hk),
    List.rotate_eq_drop_append_take (by simp [hlen]; omega),
    List.zip_append (by simp [hlen]), zip_drop_eq, zip_take_eq]

lemma zip_reverse {α β : Type} (a : List α) :
    ∀ (b : List β), a.length = b.length →
      a.reverse.zip b.reverse = (a.zip b).reverse := by
  induction a with
  | nil =>
    intro b hb
    simp
  | cons x xs ih =>
    intro b hb
    cases b with
    | nil => simp at hb
    | cons y ys =>
      simp only [List.length_cons, Nat.succ_inj] at hb
      simp only [List.reverse_cons, List.zip_cons_cons]
      rw [List.zip_append (by simp [hb]), ih ys hb]
      simp

lemma sum_map_neg_q {α : Type} (l : List α) (f : α → ℚ) :
    (l.map (fun x => -f x)).sum = -(l.map f).sum := by
  induction l with
  | nil => simp
  | cons x xs ih => simp [ih]; ring

/-! ### The signed shoelace sum under rotation and reversal -/

lemma signedAreaCc_rotate (p : List Q2) (k : ℕ) (hk : k ≤ p.length) :
    signedAreaCc (p.rotate k) = signedAreaCc p := by
  unfold signedAreaCc cyclePairs
  have h1 : (p.rotate k).rotate 1 = (p.rotate 1).rotate k := by
    rw [List.rotate_rotate, List.rotate_rotate, Nat.add_comm]
  rw [h1, zip_rotate p (p.rotate 1) k (by simp) hk]
  exact ((List.rotate_perm (p.zip (p.rotate 1)) k).map _).sum_eq

lemma signedAreaCc_reverse (p : List Q2) : signedAreaCc p.reverse = -signedAreaCc p := by
  match p with
  | [] => simp [signedAreaCc, cyclePairs, areaSum]
  | [a] =>
    simp [signedAreaCc, cyclePairs, areaSum, List.rotate_singleton, cross2]
    ring
  | a :: b :: tl =>
    set q : List Q2 := a :: b :: tl with hq
    have hlen : 2 ≤ q.length := by simp [hq]
    have hmod : 1 % q.length = 1 := Nat.mod_eq_of_lt (by omega)
    have h1 : q.reverse.rotate 1 = (q.rotate (q.length - 1)).reverse := by
      rw [List.rotate_reverse, hmod]
    have h2 : q.reverse.zip (q.reverse.rotate 1) =
        (q.zip (q.rotate (q.length - 1))).reverse := by
      rw [h1, zip_reverse q (q.rotate (q.length - 1)) (by simp)]
    have h3 : areaSum (q.zip (q.rotate (q.length - 1))) =
        -areaSum ((q.rotate (q.length - 1)).zip q) := by
      rw [← List.zip_swap (q.rotate (q.length - 1)) q]
      unfold areaSum
      rw [List.map_map]
      have hcongr : ∀ ab : Q2 × Q2,
          ((fun ab : Q2 × Q2 => cross2 ab.1 ab.2) ∘ Prod.swap) ab =
            (fun ab : Q2 × Q2 => -cross2 ab.1 ab.2) ab := by
        intro ab
        simp [cross2, Prod.swap]
        ring
      rw [List.map_congr_left (fun ab _ => hcongr ab), sum_map_neg_q]
    have h4 : (q.rotate (q.length - 1)).rotate 1 = q := by
      rw [List.rotate_rotate]
      have : q.length - 1 + 1 = q.length := by omega
      rw [this, List.rotate_length]
    calc signedAreaCc q.reverse
        = areaSum ((q.zip (q.rotate (q.length - 1))).reverse) := by
          unfold signedAreaCc cyclePairs
          rw [h2]
      _ = areaSum (q.zip (q.rotate (q.length - 1))) := by
          unfold areaSum
          rw [List.map_reverse, List.sum_reverse]
      _ = -areaSum ((q.rotate (q.length - 1)).zip q) := h3
      _ = -signedAreaCc (q.rotate (q.length - 1)) := by
          unfold signedAreaCc cyclePairs
          rw [h4]
      _ = -signedAreaCc q := by rw [signedAreaCc_rotate q (q.length - 1) (by omega)]

/-- C7: `get_cw_poly` is idempotent on polygons with at least 3 vertices; an
input that is not counter-clockwise is returned unchanged, and a
counter-clockwise input has its vertex order reversed. -/
theorem C7_get_cw_poly_idempotent (p : List Q2) (h : 3 ≤ p.length) :
    get_cw_poly (get_cw_poly p) = get_cw_poly p
    ∧ (¬ is_ccw p → get_cw_poly p = p)
    ∧ (is_ccw p → get_cw_poly p = p.reverse) := by
  unfold get_cw_poly is_ccw
  by_cases hc : 0 < signedAreaCc p
  · have hrev : ¬ 0 < signedAreaCc p.reverse := by
      rw [signedAreaCc_reverse]
      linarith
    simp [hc, hrev, is_ccw]
  · simp [hc, is_ccw]

/-- Witness for C7 at a concrete counter-clockwise triangle. -/
theorem C7_witness :
    get_cw_poly (get_cw_poly [((0 : ℚ), (0 : ℚ)), (1, 0), (0, 1)]) =
      get_cw_poly [((0 : ℚ), (0 : ℚ)), (1, 0), (0, 1)] :=
  (C7_get_cw_poly_idempotent [((0 : ℚ), (0 : ℚ)), (1, 0), (0, 1)] (by decide)).1

/-! ### Lemmas about `getD`, `set` and index lists -/

lemma getLastD_mem {α : Type} (l : List α) (d : α) (h : l ≠ []) : l.getLastD d ∈ l := by
  rw [List.getLastD_eq_getLast?]
  cases hl : l.getLast? with
  | none => exact absurd (List.getLast?_eq_none_iff.mp hl) h
  | some x => simpa using List.mem_of_getLast?_eq_some hl

lemma getD_set_self {α : Type} (l : List α) (i : ℕ) (a d : α) (h : i < l.length) :
    (l.set i a).getD i d = a := by
  rw [List.getD_eq_getElem?_getD, List.getElem?_set_self h]
  rfl

lemma getD_set_ne {α : Type} (l : List α) (i j : ℕ) (a d : α) (h : i ≠ j) :
    (l.set i a).getD j d = l.getD j d := by
  rw [List.getD_eq_getElem?_getD, List.getElem?_set_ne h, ← List.getD_eq_getElem?_getD]

lemma getD_mem {α : Type} (l : List α) (i : ℕ) (d : α) (h : i < l.length) :
    l.getD i d ∈ l := by
  rw [List.getD_eq_getElem l d h]
  exact List.getElem_mem h

lemma map_getD_range {α : Type} (l : List α) (d : α) :
    (List.range l.length).map (fun i => l.getD i d) = l := by
  apply List.ext_getElem (by simp)
  intro i h1 h2
  simp only [List.getElem_map, List.getElem_range]
  exact List.getD_eq_getElem l d h2

lemma sum_set_getD (l : List ℤ) (i : ℕ) (a : ℤ) (h : i < l.length) :
    (l.set i a).sum = l.sum - l.getD i 0 + a := by
  rw [List.sum_set, if_pos h]
  have hdrop : l.drop i = l.getD i 0 :: l.drop (i + 1) := by
    rw [List.getD_eq_getElem l 0 h]
    exact List.drop_eq_getElem_cons h
  have hsum : (l.take i).sum + (l.drop i).sum = l.sum := List.sum_take_add_sum_drop l i
  rw [hdrop] at hsum
  simp only [List.sum_cons] at hsum
  omega

lemma sum_map_sub_one (idx : List ℕ) (f : ℕ → ℤ) :
    (idx.map (fun i => f i - 1)).sum = (idx.map f).sum - idx.length := by
  induction idx with
  | nil => simp
  | cons x xs ih =>
    simp only [List.map_cons, List.sum_cons, ih, List.length_cons]
    push_cast
    ring

/-! ### Facts about `argsortEdges` -/

lemma argsortEdges_perm (p : List Q2) :
    (argsortEdges p).Perm (List.range p.length) := List.mergeSort_perm _ _

lemma argsortEdges_length (p : List Q2) : (argsortEdges p).length = p.length := by
  simpa using (argsortEdges_perm p).length_eq

lemma argsortEdges_nodup (p : List Q2) : (argsortEdges p).Nodup :=
  ((argsortEdges_perm p).symm).nodup (List.nodup_range p.length)

lemma argsortEdges_mem_lt (p : List Q2) {i : ℕ} (h : i ∈ argsortEdges p) :
    i < p.length := by
  have := (argsortEdges_perm p).mem_iff.mp h
  simpa using this

/-! ### Nonnegativity of the rounded allocations -/

lemma npRound_nonneg (x : ℝ) (hx : 0 ≤ x) : 0 ≤ npRound x := by
  unfold npRound
  have h0 : 0 ≤ ⌊x⌋ := Int.floor_nonneg.mpr hx
  split
  · split <;> omega
  · rw [round_eq]
    exact Int.floor_nonneg.mpr (by linarith)

lemma perimeterR_nonneg (p : List Q2) : 0 ≤ perimeterR p :=
  Finset.sum_nonneg fun _ _ => Real.sqrt_nonneg _

lemma edgenumInit_nonneg (p : List Q2) (N : ℕ) : ∀ e ∈ edgenumInit p N, 0 ≤ e := by
  intro e he
  simp only [edgenumInit, List.mem_map, List.mem_range] at he
  obtain ⟨i, _, rfl⟩ := he
  apply npRound_nonneg
  apply div_nonneg _ (perimeterR_nonneg p)
  exact mul_nonneg (Real.sqrt_nonneg _) (by positivity)

lemma edgenumInit_length (p : List Q2) (N : ℕ) :
    (edgenumInit p N).length = p.length := by simp [edgenumInit]

lemma edgenumFloor_length (l : List ℤ) : (edgenumFloor l).length = l.length := by
  simp [edgenumFloor]

lemma edgenumFloor_ge_one (l : List ℤ) (h : ∀ e ∈ l, 0 ≤ e) :
    ∀ e ∈ edgenumFloor l, 1 ≤ e := by
  intro e he
  simp only [edgenumFloor, List.mem_map] at he
  obtain ⟨a, ha, rfl⟩ := he
  have := h a ha
  split <;> omega

/-! ### The excess-correction loop -/

lemma fixExcess_spec :
    ∀ (order : List ℕ) (en : List ℤ) (pass : ℤ),
      order.Nodup → (∀ i ∈ order, i < en.length) → (∀ e ∈ en, 1 ≤ e) →
      0 ≤ pass → pass ≤ (order.map (fun i => en.getD i 0 - 1)).sum →
      (fixExcess order en pass).length = en.length ∧
      (fixExcess order en pass).sum = en.sum - pass ∧
      (∀ e ∈ fixExcess order en pass, 1 ≤ e) := by
  intro order
  induction order with
  | nil =>
    intro en pass _ _ h1 h0 hle
    simp only [List.map_nil, List.sum_nil] at hle
    have : pass = 0 := le_antisymm hle h0
    subst this
    exact ⟨rfl, by simp [fixExcess], by simpa [fixExcess] using h1⟩
  | cons i rest ih =>
    intro en pass hnd hbound h1 h0 hle
    have hi_lt : i < en.length := hbound i (List.mem_cons_self i rest)
    by_cases hp : pass ≤ 0
    · have : pass = 0 := le_antisymm hp h0
      subst this
      exact ⟨by simp [fixExcess], by simp [fixExcess], by simpa [fixExcess] using h1⟩
    · have hp0 : 0 < pass := lt_of_not_ge hp
      by_cases hlt : pass < en.getD i 0
      · have hres : fixExcess (i :: rest) en pass = en.set i (en.getD i 0 - pass) := by
          simp only [fixExcess]
          rw [if_neg hp, if_pos hlt]
        refine ⟨by rw [hres, List.length_set], ?_, ?_⟩
        · rw [hres, sum_set_getD en i _ hi_lt]
          ring
        · rw [hres]
          intro e he
          rcases List.mem_or_eq_of_mem_set he with h | h
          · exact h1 e h
          · omega
      · have hres : fixExcess (i :: rest) en pass =
            fixExcess rest (en.set i 1) (pass - (en.getD i 0 - 1)) := by
          simp only [fixExcess]
          rw [if_neg hp, if_neg hlt]
        have hge : en.getD i 0 ≤ pass := le_of_not_gt hlt
        have hmin1 : 1 ≤ en.getD i 0 := h1 _ (getD_mem en i 0 hi_lt)
        have hinotrest : i ∉ rest := by
          intro hmem
          exact (List.nodup_cons.mp hnd).1 hmem
        have hrest_same : rest.map (fun j => (en.set i 1).getD j 0 - 1) =
            rest.map (fun j => en.getD j 0 - 1) := by
          apply List.map_congr_left
          intro j hj
          rw [getD_set_ne en i j 1 0 (fun h => hinotrest (h ▸ hj))]
        have hrec := ih (en.set i 1) (pass - (en.getD i 0 - 1))
          (List.nodup_cons.mp hnd).2
          (fun j hj => by rw [List.length_set]; exact hbound j (List.mem_cons_of_mem i hj))
          (fun e he => by
            rcases List.mem_or_eq_of_mem_set he with h | h
            · exact h1 e h
            · omega)
          (by omega)
          (by
            rw [hrest_same]
            simp only [List.map_cons, List.sum_cons] at hle
            omega)
        refine ⟨?_, ?_, ?_⟩
        · rw [hres, hrec.1, List.length_set]
        · rw [hres, hrec.2.1, sum_set_getD en i 1 hi_lt]
          ring
        · rw [hres]
          exact hrec.2.2

/-! ### The subdivision allocation invariant -/

lemma edgenumFinal_spec (p : List Q2) (N : ℕ) (hn : 1 ≤ p.length) (hN : p.length ≤ N) :
    (edgenumFinal p N).length = p.length ∧
    (edgenumFinal p N).sum = (N : ℤ) ∧
    (∀ e ∈ edgenumFinal p N, 1 ≤ e) := by
  unfold edgenumFinal
  set en := edgenumFloor (edgenumInit p N) with hen
  have hlen : en.length = p.length := by
    rw [hen, edgenumFloor_length, edgenumInit_length]
  have h1 : ∀ e ∈ en, 1 ≤ e := edgenumFloor_ge_one _ (edgenumInit_nonneg p N)
  by_cases hs : en.sum = (N : ℤ)
  · rw [if_pos hs]
    exact ⟨hlen, hs, h1⟩
  · rw [if_neg hs]
    by_cases hgt : (N : ℤ) < en.sum
    · rw [if_pos hgt]
      have horder : ((argsortEdges p).reverse.map (fun i => en.getD i 0 - 1)).sum =
          en.sum - (p.length : ℤ) := by
        have hperm : ((argsortEdges p).reverse.map (fun i => en.getD i 0 - 1)).Perm
            ((List.range p.length).map (fun i => en.getD i 0 - 1)) :=
          ((List.reverse_perm (argsortEdges p)).trans (argsortEdges_perm p)).map _
        rw [hperm.sum_eq, sum_map_sub_one]
        have hrange : (List.range p.length).map (fun i => en.getD i 0) = en := by
          rw [← hlen]
          exact map_getD_range en 0
        rw [hrange]
        simp
      have hspec := fixExcess_spec (argsortEdges p).reverse en (en.sum - (N : ℤ))
        (List.nodup_reverse.mpr (argsortEdges_nodup p))
        (fun i hi => by
          rw [hlen]
          exact argsortEdges_mem_lt p (List.mem_reverse.mp hi))
        h1 (by omega) (by rw [horder]; omega)
      refine ⟨by rw [hspec.1, hlen], by rw [hspec.2.1]; ring, hspec.2.2⟩
    · rw [if_neg hgt]
      have hlast : (argsortEdges p).getLastD 0 ∈ argsortEdges p := by
        apply getLastD_mem
        intro hnil
        have hl := argsortEdges_length p
        rw [hnil] at hl
        simp at hl
        omega
      have hlast_lt : (argsortEdges p).getLastD 0 < en.length := by
        rw [hlen]
        exact argsortEdges_mem_lt p hlast
      refine ⟨by rw [List.length_set, hlen], ?_, ?_⟩
      · rw [sum_set_getD en _ _ hlast_lt]
        ring
      · intro e he
        rcases List.mem_or_eq_of_mem_set he with h | h
        · exact h1 e h
        · have hmem : en.getD ((argsortEdges p).getLastD 0) 0 ∈ en :=
            getD_mem en _ 0 hlast_lt
          have := h1 _ hmem
          omega

/-! ### Output cardinality of `uniformsample` -/

lemma uniformsample_length (p : List Q2) (N : ℕ) (hn : 0 < p.length) :
    (uniformsample p N).length = N := by
  unfold uniformsample
  by_cases hc : N < p.length
  · rw [if_pos hc]
    rw [List.length_map, List.length_mergeSort, List.length_drop, argsortEdges_length]
    omega
  · rw [if_neg hc]
    have hspec := edgenumFinal_spec p N hn (by omega)
    set en := edgenumFinal p N with hen
    rw [List.length_flatMap]
    have hmap1 : ∀ f : ℕ → List Q2, (∀ i, (f i).length = (en.getD i 0).toNat) →
        ((List.range p.length).map (List.length ∘ f)).sum = N := by
      intro f hf
      have hz : (((List.range p.length).map (List.length ∘ f)).sum : ℤ) = (N : ℤ) := by
        rw [Nat.cast_list_sum, List.map_map]
        have hcongr : (List.range p.length).map (Nat.cast ∘ (List.length ∘ f)) =
            (List.range p.length).map (fun i => en.getD i 0) := by
          apply List.map_congr_left
          intro i hi
          have hi_lt : i < en.length := by
            rw [hspec.1]
            exact List.mem_range.mp hi
          have hpos : (0 : ℤ) ≤ en.getD i 0 :=
            le_trans (by omega) (hspec.2.2 _ (getD_mem en i 0 hi_lt))
          simp only [Function.comp_apply, hf i]
          exact Int.toNat_of_nonneg hpos
        rw [hcongr]
        have hrange : (List.range p.length).map (fun i => en.getD i 0) = en := by
          rw [← hspec.1]
          exact map_getD_range en 0
        rw [hrange, hspec.2.1]
      exact_mod_cast hz
    apply hmap1
    intro i
    simp only [List.length_map, List.length_range]

lemma perimeterR_pos_of_edge (p : List Q2) (i : ℕ) (hi : i < p.length)
    (h : 0 < edgeLenSq p i) : 0 < perimeterR p := by
  apply Finset.sum_pos' (fun j _ => Real.sqrt_nonneg _)
  exact ⟨i, Finset.mem_range.mpr hi, Real.sqrt_pos.mpr (by exact_mod_cast h)⟩

lemma length_pos_of_perimeterR_pos (p : List Q2) (h : 0 < perimeterR p) :
    0 < p.length := by
  by_contra hc
  have h0 : p.length = 0 := by omega
  have : perimeterR p = 0 := by simp [perimeterR, h0]
  rw [this] at h
  exact lt_irrefl 0 h

/-- C3: in the subdivision branch (`P ≤ N`, positive total perimeter), the
per-edge allotted counts after the floor-of-1 pass and the excess/deficit
correction sum to exactly `N` and every count is at least 1, so the source's
assertion `np.sum(edgenum) == newpnum` never fails and the excess loop never
drives a count below 1. -/
theorem C3_subdivision_sum_invariant (p : List Q2) (N : ℕ)
    (hperim : 0 < perimeterR p) (hbranch : p.length ≤ N) :
    (edgenumFinal p N).sum = (N : ℤ) ∧ ∀ e ∈ edgenumFinal p N, 1 ≤ e := by
  have hn : 1 ≤ p.length := length_pos_of_perimeterR_pos p hperim
  exact ⟨(edgenumFinal_spec p N hn hbranch).2.1, (edgenumFinal_spec p N hn hbranch).2.2⟩

/-- Witness for C3 on the right triangle `(0,0), (3,0), (0,4)` with `N = 3`. -/
theorem C3_witness :
    (edgenumFinal [((0 : ℚ), (0 : ℚ)), (3, 0), (0, 4)] 3).sum = (3 : ℤ) ∧
      ∀ e ∈ edgenumFinal [((0 : ℚ), (0 : ℚ)), (3, 0), (0, 4)] 3, 1 ≤ e :=
  C3_subdivision_sum_invariant [((0 : ℚ), (0 : ℚ)), (3, 0), (0, 4)] 3
    (perimeterR_pos_of_edge _ 0 (by decide) (by norm_num [edgeLenSq, getP])) (by decide)

/-- C2: for every polygon with at least 3 vertices and positive total
perimeter and every target `N > 0`, `uniformsample` returns exactly `N`
points, in both the contraction and the subdivision branch. -/
theorem C2_resample_cardinality (p : List Q2) (N : ℕ) (hP : 3 ≤ p.length)
    (hperim : 0 < perimeterR p) (hN : 0 < N) :
    (uniformsample p N).length = N :=
  uniformsample_length p N (by omega)

/-- Witness for C2 on the right triangle `(0,0), (3,0), (0,4)` with `N = 3`. -/
theorem C2_witness :
    (uniformsample [((0 : ℚ), (0 : ℚ)), (3, 0), (0, 4)] 3).length = 3 :=
  C2_resample_cardinality [((0 : ℚ), (0 : ℚ)), (3, 0), (0, 4)] 3 (by decide)
    (perimeterR_pos_of_edge _ 0 (by decide) (by norm_num [edgeLenSq, getP])) (by decide)

lemma map_getP_sublist (p : List Q2) (idx : List ℕ)
    (hs : idx.Pairwise (fun a b => a < b)) (hb : ∀ i ∈ idx, i < p.length) :
    (idx.map (getP p)).Sublist p := by
  have hpm : idx.map (getP p) =
      List.pmap (fun i (h : i < p.length) => p[i]) idx hb := by
    calc idx.map (getP p)
        = List.pmap (fun i (_ : i < p.length) => getP p i) idx hb :=
          (List.pmap_eq_map _ _ idx hb).symm
      _ = List.pmap (fun i (h : i < p.length) => p[i]) idx hb :=
          List.pmap_congr_left idx (fun i _ h1 h2 => List.getD_eq_getElem p (0, 0) h2)
  have hfin : List.pmap (fun i (h : i < p.length) => p[i]) idx hb =
      (List.pmap (fun i (h : i < p.length) => (⟨i, h⟩ : Fin p.length)) idx hb).map
        (fun x : Fin p.length => p[x]) := by
    rw [List.map_pmap]
    exact List.pmap_congr_left idx (fun i _ h1 h2 => rfl)
  have hpair : (List.pmap (fun i (h : i < p.length) => (⟨i, h⟩ : Fin p.length)) idx hb).Pairwise
      (fun a b : Fin p.length => a < b) := by
    rw [List.pairwise_pmap hb]
    exact hs.imp (fun {a b} hab => fun h1 h2 => by exact hab)
  rw [hpm, hfin]
  exact List.map_getElem_sublist hpair

/-- C6: in the contraction branch (`P > N`), `uniformsample` returns exactly
the `N` input vertices whose outgoing edges rank among the `N` longest under
the stable-by-index length sort, listed as a subsequence of the input in
original traversal order (kept indices strictly increasing), with no new
points created. -/
theorem C6_contraction_selects_longest (p : List Q2) (N : ℕ) (hc : N < p.length) :
    ∃ idx : List ℕ,
      uniformsample p N = idx.map (getP p) ∧
      idx.Perm ((argsortEdges p).drop (p.length - N)) ∧
      idx.Pairwise (fun a b => a < b) ∧
      (uniformsample p N).Sublist p ∧
      (uniformsample p N).length = N := by
  have hu : uniformsample p N =
      (((argsortEdges p).drop (p.length - N)).mergeSort
        (fun i j => decide (i ≤ j))).map (getP p) := by
    unfold uniformsample
    rw [if_pos hc]
  set idx := ((argsortEdges p).drop (p.length - N)).mergeSort
    (fun i j => decide (i ≤ j)) with hidx
  have hperm : idx.Perm ((argsortEdges p).drop (p.length - N)) :=
    List.mergeSort_perm _ _
  have hnodup : idx.Nodup :=
    hperm.symm.nodup ((List.drop_sublist _ _).nodup (argsortEdges_nodup p))
  have hsorted : idx.Pairwise (fun a b => decide (a ≤ b) = true) :=
    List.sorted_mergeSort
      (fun a b c hab hbc => by
        simp only [decide_eq_true_eq] at *
        omega)
      (fun a b => by
        simpa using Nat.le_total a b)
      ((argsortEdges p).drop (p.length - N))
  have hle : idx.Pairwise (fun a b => a ≤ b) :=
    hsorted.imp (fun {a b} h => by simpa using h)
  have hlt : idx.Pairwise (fun a b => a < b) :=
    (hle.and hnodup).imp (fun {a b} h => lt_of_le_of_ne h.1 h.2)
  have hbound : ∀ i ∈ idx, i < p.length := fun i hi =>
    argsortEdges_mem_lt p ((List.drop_sublist _ _).subset (hperm.subset hi))
  have hsub : (idx.map (getP p)).Sublist p := map_getP_sublist p idx hlt hbound
  refine ⟨idx, hu, hperm, hlt, by rw [hu]; exact hsub, ?_⟩
  rw [hu, List.length_map, List.length_mergeSort, List.length_drop, argsortEdges_length]
  omega

/-- Witness for C6 on a 5-vertex polygon contracted to `N = 3`. -/
theorem C6_witness :
    ∃ idx : List ℕ,
      uniformsample [((0 : ℚ), (0 : ℚ)), (10, 0), (10, 10), (5, 12), (0, 10)] 3 =
        idx.map (getP [((0 : ℚ), (0 : ℚ)), (10, 0), (10, 10), (5, 12), (0, 10)]) ∧
      idx.Perm ((argsortEdges [((0 : ℚ), (0 : ℚ)), (10, 0), (10, 10), (5, 12), (0, 10)]).drop
        (([((0 : ℚ), (0 : ℚ)), (10, 0), (10, 10), (5, 12), (0, 10)] : List Q2).length - 3)) ∧
      idx.Pairwise (fun a b => a < b) ∧
      (uniformsample [((0 : ℚ), (0 : ℚ)), (10, 0), (10, 10), (5, 12), (0, 10)] 3).Sublist
        [((0 : ℚ), (0 : ℚ)), (10, 0), (10, 10), (5, 12), (0, 10)] ∧
      (uniformsample [((0 : ℚ), (0 : ℚ)), (10, 0), (10, 10), (5, 12), (0, 10)] 3).length = 3 :=
  C6_contraction_selects_longest [((0 : ℚ), (0 : ℚ)), (10, 0), (10, 10), (5, 12), (0, 10)] 3
    (by decide)

/-! ### Length bookkeeping through the resampling chain -/

lemma argminIdx_le (l : List ℚ) : argminIdx l ≤ l.length := by
  induction l with
  | nil => simp [argminIdx]
  | cons a rest ih =>
    cases rest with
    | nil => simp [argminIdx]
    | cons b tl =>
      simp only [argminIdx]
      split
      · simp
      · simpa using Nat.succ_le_succ ih

lemma get_cw_poly_length (p : List Q2) : (get_cw_poly p).length = p.length := by
  unfold get_cw_poly
  split <;> simp

lemma unify_origin_polygon_length (p : List Q2) :
    (unify_origin_polygon p).length = p.length := by
  unfold unify_origin_polygon
  simp only [List.length_append, List.length_drop, List.length_take]
  have h := argminIdx_le (p.map (fun q =>
    (q.1 - (listMinQ (p.map Prod.fst) + listMaxQ (p.map Prod.fst)) / 2) ^ 2 +
      (q.2 - listMinQ (p.map Prod.snd)) ^ 2))
  rw [List.length_map] at h
  omega

lemma npStride_length (k : ℕ) (l : List Q2) :
    (npStride k l).length = (l.length + k - 1) / k := by
  simp [npStride]

lemma resampleOne_length (cfg : LoadCfg) (q : List Q2) (hq : 0 < q.length) :
    (resampleOne cfg q).length =
      (spline_poly_num cfg + cfg.spline_num - 1) / cfg.spline_num := by
  simp only [resampleOne]
  rw [unify_origin_polygon_length, get_cw_poly_length, npStride_length,
    List.length_rotate, uniformsample_length q _ hq]

/-! ### `unify_polygons` on well-formed input -/

lemma mapM_reshape2_eq (flat : List (List ℚ)) (h : ∀ fl ∈ flat, fl.length % 2 = 0) :
    flat.mapM reshape2 = some (flat.map pairUp) := by
  induction flat with
  | nil => rfl
  | cons x xs ih =>
    rw [List.mapM_cons]
    have hx : reshape2 x = some (pairUp x) := by
      unfold reshape2
      rw [if_pos (h x (List.mem_cons_self x xs))]
    rw [hx, ih (fun fl hfl => h fl (List.mem_cons_of_mem x hfl))]
    rfl

lemma unify_polygons_eq (cfg : LoadCfg) (flat : List (List ℚ)) (b : ℚ × ℚ × ℚ × ℚ)
    (h : ∀ fl ∈ flat, fl.length % 2 = 0) :
    unify_polygons cfg flat b =
      some ((flat.map pairUp).map (resampleOne cfg),
        (flat.map pairUp).map (fun _ => List.replicate cfg.num_points (1 : ℚ))) := by
  unfold unify_polygons
  rw [mapM_reshape2_eq flat h]
  rfl

/-- C1 (code bug): the bounding box passed to `unify_polygons` never
influences its output — `filtered_polygons`, including the synthesized
bounding-box rectangle fallback, is computed and then never read; the
resampling loop runs over the raw `polygons` list, so an all-degenerate
instance is *not* replaced by the 4-point rectangle. -/
theorem C1_fallback_rectangle_never_resampled (cfg : LoadCfg) (flat : List (List ℚ))
    (b b2 : ℚ × ℚ × ℚ × ℚ) :
    unify_polygons cfg flat b = unify_polygons cfg flat b2 := rfl

/-- C10: the resampling loop of `unify_polygons` runs over the original
(unfiltered) polygon list, so the returned polygon list and weight list each
contain exactly one entry per raw input polygon. -/
theorem C10_one_output_per_raw_polygon (cfg : LoadCfg) (flat : List (List ℚ))
    (b : ℚ × ℚ × ℚ × ℚ) (hne : flat ≠ [])
    (heven : ∀ fl ∈ flat, fl.length % 2 = 0) :
    ∃ ps ws, unify_polygons cfg flat b = some (ps, ws) ∧
      ps.length = flat.length ∧ ws.length = flat.length := by
  exact ⟨_, _, unify_polygons_eq cfg flat b heven, by simp, by simp⟩

/-- Witness for C10 on a single-triangle instance. -/
theorem C10_witness :
    ∃ ps ws, unify_polygons ⟨2, 10, 1⟩ [[0, 0, 3, 0, 0, 4]] (0, 0, 1, 1) = some (ps, ws) ∧
      ps.length = ([[(0 : ℚ), 0, 3, 0, 0, 4]] : List (List ℚ)).length ∧
      ws.length = ([[(0 : ℚ), 0, 3, 0, 0, 4]] : List (List ℚ)).length :=
  C10_one_output_per_raw_polygon ⟨2, 10, 1⟩ [[0, 0, 3, 0, 0, 4]] (0, 0, 1, 1)
    (by simp) (by decide)

/-- C4 (counterexample): with `num_points = 1` and `spline_num = 5`, the
working resolution is `spline_poly_num = 1 * 10 = 10`, not
`spline_num × num_points = 5`, and the produced point sequence has length
`⌈10/5⌉ = 2 ≠ num_points`. -/
theorem C4_counterexample :
    spline_poly_num ⟨1, 5, 1⟩ ≠
      (⟨1, 5, 1⟩ : LoadCfg).spline_num * (⟨1, 5, 1⟩ : LoadCfg).num_points ∧
    (resampleOne ⟨1, 5, 1⟩ [((0 : ℚ), (0 : ℚ)), (3, 0), (0, 4)]).length ≠
      (⟨1, 5, 1⟩ : LoadCfg).num_points := by
  constructor
  · decide
  · rw [resampleOne_length _ _ (by decide)]
    decide

/-- C4 (amended): the working resolution of `unify_polygons` is the hardcoded
`10 × num_points` (agreeing with `spline_num × num_points` only when
`spline_num = 10`, its default); when `spline_num = 10` and every raw polygon
is well-formed with positive perimeter, every produced point sequence and
weight sequence has length exactly `num_points`. -/
theorem C4_amended_lengths (cfg : LoadCfg) (flat : List (List ℚ)) (b : ℚ × ℚ × ℚ × ℚ)
    (hsp : cfg.spline_num = 10) (hnp : 0 < cfg.num_points)
    (heven : ∀ fl ∈ flat, fl.length % 2 = 0)
    (hperim : ∀ fl ∈ flat, 0 < perimeterR (pairUp fl)) :
    spline_poly_num cfg = 10 * cfg.num_points ∧
    ∃ ps ws, unify_polygons cfg flat b = some (ps, ws) ∧
      (∀ q ∈ ps, q.length = cfg.num_points) ∧
      (∀ w ∈ ws, w.length = cfg.num_points) := by
  refine ⟨by simp [spline_poly_num, Nat.mul_comm], _, _,
    unify_polygons_eq cfg flat b heven, ?_, ?_⟩
  · intro q hq
    simp only [List.map_map, List.mem_map, Function.comp_apply] at hq
    obtain ⟨fl, hfl, rfl⟩ := hq
    rw [resampleOne_length cfg _ (length_pos_of_perimeterR_pos _ (hperim fl hfl)), hsp,
      spline_poly_num]
    omega
  · intro w hw
    simp only [List.map_map, List.mem_map, Function.comp_apply] at hw
    obtain ⟨fl, hfl, rfl⟩ := hw
    simp

/-- Witness for C4's amended statement with `num_points = 3`, `spline_num = 10`
on a single-triangle instance. -/
theorem C4_amended_witness :
    spline_poly_num ⟨3, 10, 1⟩ = 10 * 3 ∧
    ∃ ps ws, unify_polygons ⟨3, 10, 1⟩ [[0, 0, 3, 0, 0, 4]] (0, 0, 1, 1) = some (ps, ws) ∧
      (∀ q ∈ ps, q.length = 3) ∧ (∀ w ∈ ws, w.length = 3) :=
  C4_amended_lengths ⟨3, 10, 1⟩ [[0, 0, 3, 0, 0, 4]] (0, 0, 1, 1) rfl (by decide)
    (by decide)
    (by
      intro fl hfl
      simp only [List.mem_singleton] at hfl
      subst hfl
      exact perimeterR_pos_of_edge _ 0 (by decide) (by norm_num [pairUp, edgeLenSq, getP]))

/-! ### Fancy-index assignment (`arr[rows] = vals`) as a fold of `set` -/

lemma foldl_set_length {α : Type} (pairs : List (ℕ × ℕ)) (f : ℕ × ℕ → α) :
    ∀ init : List α,
      (pairs.foldl (fun acc rc => acc.set rc.1 (f rc)) init).length = init.length := by
  induction pairs with
  | nil => intro init; rfl
  | cons q rest ih =>
    intro init
    rw [List.foldl_cons, ih, List.length_set]

lemma foldl_set_getD_not_mem {α : Type} (pairs : List (ℕ × ℕ)) (f : ℕ × ℕ → α)
    (i : ℕ) (d : α) (hi : i ∉ pairs.map Prod.fst) :
    ∀ init : List α,
      (pairs.foldl (fun acc rc => acc.set rc.1 (f rc)) init).getD i d = init.getD i d := by
  induction pairs with
  | nil => intro init; rfl
  | cons q rest ih =>
    intro init
    simp only [List.map_cons, List.mem_cons] at hi
    push_neg at hi
    rw [List.foldl_cons, ih hi.2]
    exact getD_set_ne init q.1 i _ d (fun hqi => hi.1 hqi.symm)

lemma foldl_set_getD_mem {α : Type} (pairs : List (ℕ × ℕ)) (f : ℕ × ℕ → α) (d : α)
    (hnd : (pairs.map Prod.fst).Nodup) :
    ∀ init : List α, (∀ rc ∈ pairs, rc.1 < init.length) →
      ∀ rc ∈ pairs,
        (pairs.foldl (fun acc rc2 => acc.set rc2.1 (f rc2)) init).getD rc.1 d = f rc := by
  induction pairs with
  | nil =>
    intro init _ rc hrc
    simp at hrc
  | cons q rest ih =>
    intro init hb rc hrc
    simp only [List.map_cons, List.nodup_cons] at hnd
    rw [List.foldl_cons]
    rcases List.mem_cons.mp hrc with h | h
    · subst h
      rw [foldl_set_getD_not_mem rest f rc.1 d hnd.1]
      exact getD_set_self init rc.1 (f rc) d (hb rc (List.mem_cons_self rc rest))
    · exact ih hnd.2 (init.set q.1 (f q))
        (fun rc2 hrc2 => by
          rw [List.length_set]
          exact hb rc2 (List.mem_cons_of_mem q hrc2)) rc h

lemma length_filter_mem (rows : List ℕ) (N : ℕ) (hnd : rows.Nodup)
    (hb : ∀ r ∈ rows, r < N) :
    ((List.range N).filter (fun i => decide (i ∈ rows))).length = rows.length := by
  have h1 : ((List.range N).filter (fun i => decide (i ∈ rows))).Nodup :=
    (List.nodup_range N).filter _
  rw [← List.toFinset_card_of_nodup h1, ← List.toFinset_card_of_nodup hnd]
  congr 1
  ext x
  simp only [List.mem_toFinset, List.mem_filter, List.mem_range, decide_eq_true_eq]
  exact ⟨fun hx => hx.2, fun hx => ⟨hb x hx, hx⟩⟩

/-- C5 (counterexample): with the configured `key_points_weight = 5/2`, the
matched row of the weight column carries `2`, not the configured `5/2` â the
source assigns into the int-typed `np.ones((num_points, 1), dtype=int)` array,
truncating the weight, so the claim as stated fails for non-integer
configured weights. -/
theorem C5_counterexample :
    (((matchUpdate 3 [((0 : ℚ), (0 : ℚ)), (1, 1), (2, 2)] [((5 : ℚ), (6 : ℚ))] [(1, 0)]
        (5 / 2)).2.getD 1 0 : ℤ) : ℚ) ≠ 5 / 2 := by
  have ht : truncQ (5 / 2 : ℚ) = 2 := by
    unfold truncQ
    rw [if_pos (by norm_num)]
    norm_num
  have h : (matchUpdate 3 [((0 : ℚ), (0 : ℚ)), (1, 1), (2, 2)] [((5 : ℚ), (6 : ℚ))]
      [(1, 0)] (5 / 2)).2.getD 1 0 = 2 := by
    simp [matchUpdate, ht]
  rw [h]
  norm_num

/-- C5 (amended): after correspondence matching of an `N`-point resampled
polygon against `M` real keypoints (`matched_row_inds` distinct and in range,
one matched pair per keypoint), the int-typed weight column holds
`int(key_points_weight)` â the configured weight truncated toward zero, equal
to it whenever it is an integer â exactly at the matched row indices and 1
everywhere else, each matched row's coordinates are overwritten with its
matched keypoint's coordinates, and exactly `M` of the `N` indices are
matched. -/
theorem C5_matching_weights (N : ℕ) (poly kp : List Q2) (pairs : List (ℕ × ℕ)) (w : ℚ)
    (hlen : poly.length = N)
    (hnd : (pairs.map Prod.fst).Nodup)
    (hb : ∀ rc ∈ pairs, rc.1 < N)
    (hM : pairs.length = kp.length) :
    (matchUpdate N poly kp pairs w).2.length = N ∧
    (matchUpdate N poly kp pairs w).1.length = N ∧
    (∀ rc ∈ pairs,
      (matchUpdate N poly kp pairs w).2.getD rc.1 0 = truncQ w ∧
      (matchUpdate N poly kp pairs w).1.getD rc.1 (0, 0) = kp.getD rc.2 (0, 0)) ∧
    (∀ i, i < N → i ∉ pairs.map Prod.fst →
      (matchUpdate N poly kp pairs w).2.getD i 0 = 1 ∧
      (matchUpdate N poly kp pairs w).1.getD i (0, 0) = poly.getD i (0, 0)) ∧
    ((List.range N).filter (fun i => decide (i ∈ pairs.map Prod.fst))).length = kp.length := by
  unfold matchUpdate
  refine ⟨?_, ?_, ?_, ?_, ?_⟩
  · rw [foldl_set_length]
    simp
  · rw [foldl_set_length, hlen]
  · intro rc hrc
    constructor
    · exact foldl_set_getD_mem pairs (fun _ => truncQ w) 0 hnd (List.replicate N 1)
        (fun rc2 h2 => by simpa using hb rc2 h2) rc hrc
    · exact foldl_set_getD_mem pairs (fun rc2 => kp.getD rc2.2 (0, 0)) (0, 0) hnd poly
        (fun rc2 h2 => by rw [hlen]; exact hb rc2 h2) rc hrc
  · intro i hiN hnm
    constructor
    · rw [foldl_set_getD_not_mem pairs _ i 0 hnm,
        List.getD_eq_getElem _ _ (by simpa using hiN)]
      simp
    · rw [foldl_set_getD_not_mem pairs _ i (0, 0) hnm]
  · rw [← hM]
    have hrows : ∀ r ∈ pairs.map Prod.fst, r < N := by
      intro r hr
      simp only [List.mem_map] at hr
      obtain ⟨rc, hrc, rfl⟩ := hr
      exact hb rc hrc
    rw [length_filter_mem (pairs.map Prod.fst) N hnd hrows, List.length_map]

/-- Witness for C5's amended statement with `N = 3`, one keypoint matched to
row 1, configured weight `5/2` (stored truncated as `truncQ (5/2) = 2`). -/
theorem C5_witness :
    (matchUpdate 3 [((0 : ℚ), (0 : ℚ)), (1, 1), (2, 2)] [((5 : ℚ), (6 : ℚ))] [(1, 0)] (5 / 2)).2.length = 3 ∧
    (matchUpdate 3 [((0 : ℚ), (0 : ℚ)), (1, 1), (2, 2)] [((5 : ℚ), (6 : ℚ))] [(1, 0)] (5 / 2)).2.getD 1 0 = truncQ (5 / 2) ∧
    (matchUpdate 3 [((0 : ℚ), (0 : ℚ)), (1, 1), (2, 2)] [((5 : ℚ), (6 : ℚ))] [(1, 0)] (5 / 2)).1.getD 1 (0, 0) = (5, 6) :=
  ⟨(C5_matching_weights 3 [((0 : ℚ), (0 : ℚ)), (1, 1), (2, 2)] [((5 : ℚ), (6 : ℚ))] [(1, 0)] (5 / 2)
      (by decide) (by decide) (by decide) (by decide)).1,
   ((C5_matching_weights 3 [((0 : ℚ), (0 : ℚ)), (1, 1), (2, 2)] [((5 : ℚ), (6 : ℚ))] [(1, 0)] (5 / 2)
      (by decide) (by decide) (by decide) (by decide)).2.2.1 (1, 0) (by decide)).1,
   ((C5_matching_weights 3 [((0 : ℚ), (0 : ℚ)), (1, 1), (2, 2)] [((5 : ℚ), (6 : ℚ))] [(1, 0)] (5 / 2)
      (by decide) (by decide) (by decide) (by decide)).2.2.1 (1, 0) (by decide)).2⟩

/-- C8 (counterexample): a malformed polygon of odd flat length makes the
annotation-loading spline path fail: `reshape(-1, 2)` inside `unify_polygons`
raises (modelled as `none`), so the instance body errors rather than silently
excluding the polygon. -/
theorem C8_counterexample :
    loadMasksInstanceSpline ⟨3, 10, 2⟩ (fun p => p) (fun _ _ => []) [[0, 0, 1]]
      (0, 0, 1, 1) = none := rfl

/-- C8 (amended): `process_polygons_m` itself does silently exclude malformed
polygons — its output is unchanged when the malformed entries (odd flat
length or fewer than 3 points) are removed from the input — but a malformed
polygon's presence still crashes the surrounding `_load_masks` spline path
(see the counterexample). -/
theorem C8_malformed_excluded (cfg : LoadCfg) (f : List Q2 → List Q2)
    (flat : List (List ℚ)) :
    process_polygons_m cfg f flat =
      process_polygons_m cfg f
        (flat.filter (fun q => decide (q.length % 2 = 0) && decide (6 ≤ q.length))) := by
  simp only [process_polygons_m, List.filter_filter, Bool.and_self]

/-- C9: when the elementwise sum of the decoded per-instance masks does not
have shape `(h, w)`, the result is discarded and replaced by an all-zero
`(h, w)` raster; the operation is total (never raises). -/
theorem C9_shape_mismatch_zero_fallback (decoded : List (List (List ℚ))) (h w : ℕ)
    (hsh : rasterShape (npSumMasks decoded) ≠ (h, w)) :
    gt_poly_masks decoded h w = zeroRaster h w ∧
    (gt_poly_masks decoded h w).length = h ∧
    (∀ row ∈ gt_poly_masks decoded h w, row.length = w ∧ ∀ x ∈ row, x = 0) := by
  have hg : gt_poly_masks decoded h w = zeroRaster h w := by
    unfold gt_poly_masks
    rw [if_neg hsh]
  refine ⟨hg, by rw [hg]; simp [zeroRaster], ?_⟩
  rw [hg]
  intro row hrow
  have hrow2 : row = List.replicate w (0 : ℚ) := List.eq_of_mem_replicate hrow
  subst hrow2
  exact ⟨by simp, fun x hx => List.eq_of_mem_replicate hx⟩

/-- Witness for C9: a `2 × 2` summed mask against a `3 × 2` expected shape. -/
theorem C9_witness :
    gt_poly_masks [[[1, 2], [3, 4]]] 3 2 = zeroRaster 3 2 ∧
    (gt_poly_masks [[[1, 2], [3, 4]]] 3 2).length = 3 ∧
    (∀ row ∈ gt_poly_masks [[[1, 2], [3, 4]]] 3 2, row.length = 2 ∧ ∀ x ∈ row, x = 0) :=
  C9_shape_mismatch_zero_fallback [[[1, 2], [3, 4]]] 3 2 (by decide)
